import Mathlib

/-!
Verification of the record-unification and evidence-screening core of the
RL mechanical-ventilation weaning review pipeline.

The development shallowly embeds the core functions of `filter.py`
(normalisation helpers, `better_record`, `deduplicate`, `apply_filters`,
`abstract_stage`, the PRISMA update) and of
`rescreen_excluded_with_abstracts.py` (the rescue pass and its PRISMA
update).  Term matchers are modelled as lists of boolean predicates on
strings (one predicate per compiled regex); the external abstract
provider chain is modelled as a function from records to the abstract
text it yields.
-/

/-- The canonical record: one normalised bibliographic row.  Mirrors the
dict produced by `norm_record` plus the evidence/decision keys the
screening stages add (`match_mv`, `auto_exclude_reason`, `abstract`,
`decision`, ...); keys a stage has not set yet are the defaults. -/
structure Record where
  source : String := ""
  id : String := ""
  title : String := ""
  authors : List String := []
  year : Option Nat := none
  doi : String := ""
  url : String := ""
  venue : String := ""
  extra_snippet : String := ""
  extra_pub_summary : String := ""
  match_mv : Bool := false
  match_weaning : Bool := false
  match_rl : Bool := false
  auto_exclude_reason : String := ""
  abstract : String := ""
  match_mv_abs : Bool := false
  match_wean_abs : Bool := false
  match_rl_abs : Bool := false
  decision : String := ""
deriving DecidableEq, Repr

/-- The PRISMA count object (the fields the two scripts read and write
when deriving the after-abstract totals). -/
structure Prisma where
  auto_screen_in : Int := 0
  auto_screen_out : Int := 0
  auto_screen_in_after_abstract : Option Int := none
  auto_screen_out_after_abstract : Option Int := none
deriving DecidableEq, Repr

/-! ### String helpers (`normalize_text`, `norm_title_key`) -/

/-- Split a character list into the chunks delimited by characters
satisfying `p` (a chunk may be empty, as with `re.split` on each
delimiter occurrence). -/
def group_tokens (p : Char → Bool) (cs : List Char) : List (List Char) :=
  cs.foldr
    (fun c acc =>
      if p c then [] :: acc
      else
        match acc with
        | [] => [[c]]
        | t :: ts => (c :: t) :: ts)
    []

/-- `sep.join xs` of Python. -/
def join_with (sep : String) : List String → String
  | [] => ""
  | [x] => x
  | x :: xs => x ++ sep ++ join_with sep xs

/-- Python `str.lower()` (ASCII case folding, the range the pipeline's
data exercises). -/
def str_lower (s : String) : String :=
  String.mk (s.data.map Char.toLower)

/-- `normalize_text`: `re.sub(r"\s+", " ", s).strip()` — collapse
whitespace runs to a single space and trim, i.e. join the maximal
non-whitespace runs with single spaces. -/
def normalize_text (s : String) : String :=
  join_with " "
    (((group_tokens Char.isWhitespace s.data).filter (fun t => t ≠ [])).map
      (fun t => String.mk t))

/-- `norm_title_key`: lower-case the normalised title, collapse runs of
non-`[a-z0-9]` characters to single spaces, trim. -/
def norm_title_key (title : String) : String :=
  join_with " "
    (((group_tokens (fun c => !(c.isLower || c.isDigit))
          (str_lower (normalize_text title)).data).filter (fun t => t ≠ [])).map
      (fun t => String.mk t))

/-! ### Deduplication (`SOURCE_PRIORITY`, `better_record`, `deduplicate`) -/

/-- The fixed source-priority ordering of `filter.py`. -/
def SOURCE_PRIORITY : List String :=
  ["web_of_science", "scopus", "openalex", "semantic_scholar",
   "google_scholar", "arxiv", "pubmed"]

/-- Python `list.index` (position of the first occurrence; only applied
to elements present in the list). -/
def list_index (x : String) : List String → Nat
  | [] => 0
  | y :: ys => if y = x then 0 else 1 + list_index x ys

/-- `better_record(a, b)`: choose the surviving record when identity
keys collide.  Note the source-priority step of the source returns `a`
in both of its branches. -/
def better_record (a b : Record) : Record :=
  if a.doi ≠ "" ∧ b.doi = "" then a
  else if b.doi ≠ "" ∧ a.doi = "" then b
  else if a.title.length > b.title.length then a
  else if b.title.length > a.title.length then b
  else if list_index a.source SOURCE_PRIORITY < list_index b.source SOURCE_PRIORITY then a
  else a

/-- The DOI identity key: `(r.get("doi") or "").lower()`. -/
def doi_key (r : Record) : String := str_lower r.doi

/-- Truthiness of the `year` field (`if r.get("year"):`); the field is
an int or absent. -/
def year_truthy (r : Record) : Bool :=
  match r.year with
  | some y => y != 0
  | none => false

/-- Decimal rendering of the year, as interpolated by `f"{key}|{r['year']}"`. -/
def year_repr (r : Record) : String :=
  match r.year with
  | some y => toString y
  | none => ""

/-- The full fallback key used by `deduplicate`: normalised title key,
with `|year` appended when the year is truthy. -/
def full_title_key (r : Record) : String :=
  if year_truthy r then norm_title_key r.title ++ "|" ++ year_repr r
  else norm_title_key r.title

/-- Association list standing for a Python dict (insertion order
preserved; updating an existing key keeps its position). -/
abbrev StrDict := List (String × Record)

/-- First value stored at `k`, if any (`k in d` / `d[k]`). -/
def alist_find? : StrDict → String → Option Record
  | [], _ => none
  | (k', v) :: rest, k => if k' = k then some v else alist_find? rest k

/-- `d[k] = v`: replace the value at `k` in place if present, append a
new entry otherwise. -/
def alist_insert : StrDict → String → Record → StrDict
  | [], k, v => [(k, v)]
  | (k', v') :: rest, k, v =>
    if k' = k then (k, v) :: rest else (k', v') :: alist_insert rest k v

/-- The loop state of `deduplicate`: the `by_doi` and `by_title` dicts
and the list of identity-less records `kept` as-is. -/
structure DedupState where
  by_doi : StrDict := []
  by_title : StrDict := []
  kept : List Record := []
deriving Repr

/-- One iteration of the `deduplicate` loop.  The first branch is the
DOI bucket (`doi = r.doi.lower()` truthy), then the identity-less
passthrough (empty normalised title key), then the title(+year) bucket. -/
def dedup_step (st : DedupState) (r : Record) : DedupState :=
  if doi_key r ≠ "" then
    match alist_find? st.by_doi (doi_key r) with
    | some old =>
      { st with by_doi := alist_insert st.by_doi (doi_key r) (better_record old r) }
    | none => { st with by_doi := alist_insert st.by_doi (doi_key r) r }
  else if norm_title_key r.title = "" then
    { st with kept := st.kept ++ [r] }
  else
    match alist_find? st.by_title (full_title_key r) with
    | some old =>
      { st with by_title := alist_insert st.by_title (full_title_key r) (better_record old r) }
    | none => { st with by_title := alist_insert st.by_title (full_title_key r) r }

/-- `deduplicate(records)`: fold the loop body over the input, then emit
`kept` followed by the values of `by_doi` and of `by_title`. -/
def deduplicate (records : List Record) : List Record :=
  let st := records.foldl dedup_step {}
  st.kept ++ st.by_doi.map Prod.snd ++ st.by_title.map Prod.snd

/-- The identity key of a record, as `deduplicate` derives it: the
lower-cased DOI when non-empty, else the normalised-title(+year)
composite when the title key is non-empty, else no key. -/
inductive IdKey where
  | doiK : String → IdKey
  | titleK : String → IdKey
  | noKey : IdKey
deriving DecidableEq, Repr

/-- Identity-key derivation (see `dedup_step`). -/
def id_key (r : Record) : IdKey :=
  if doi_key r ≠ "" then .doiK (doi_key r)
  else if norm_title_key r.title ≠ "" then .titleK (full_title_key r)
  else .noKey

/-! ### Stage-1 screening (`text_blob`, `matches_any`, `apply_filters`) -/

/-- A compiled term list: one boolean matcher per pattern. -/
abbrev RxList := List (String → Bool)

/-- `matches_any(rx_list, text)` of the stage-1 screen: true iff some
compiled matcher fires on the text. -/
def matches_any (rx_list : RxList) (text : String) : Bool :=
  rx_list.any (fun r => r text)

/-- `text_blob(rec)`: title, venue and the Google-Scholar snippet and
publication summary carried in `extra`, joined by single spaces with
empty parts dropped. -/
def text_blob (r : Record) : String :=
  join_with " "
    ([r.title, r.venue, r.extra_snippet, r.extra_pub_summary].filter (fun p => p ≠ ""))

/-- The exclusion annotation of `apply_filters`: the ordered reason
codes (`no_mv`, `no_weaning`, and `no_rl` only under strict mode) joined
by commas, or `no_match` when no individual reason applies. -/
def reason_str (has_mv has_wean has_rl strict : Bool) : String :=
  let reason :=
    (if !has_mv then ["no_mv"] else []) ++
    (if !has_wean then ["no_weaning"] else []) ++
    (if strict && !has_rl then ["no_rl"] else [])
  if reason = [] then "no_match" else join_with "," reason

/-- `apply_filters(records)`: partition the merged records into
`screened_in` (annotated with the three evidence flags) and
`screened_out` (annotated with `auto_exclude_reason`), by the rule
`has_mv and has_wean and (has_rl or not STRICT_REQUIRE_RL)`. -/
def apply_filters (mvRx weanRx rlRx : RxList) (strict : Bool) :
    List Record → List Record × List Record
  | [] => ([], [])
  | r :: rest =>
    let has_mv := matches_any mvRx (text_blob r)
    let has_wean := matches_any weanRx (text_blob r)
    let has_rl := matches_any rlRx (text_blob r)
    let rec_rest := apply_filters mvRx weanRx rlRx strict rest
    if has_mv && has_wean && (has_rl || !strict) then
      ({ r with match_mv := has_mv, match_weaning := has_wean, match_rl := has_rl }
         :: rec_rest.1,
       rec_rest.2)
    else
      (rec_rest.1,
       { r with auto_exclude_reason := reason_str has_mv has_wean has_rl strict }
         :: rec_rest.2)

/-- The stage-1 screen-in predicate (the guard of `apply_filters`). -/
def stage1_pred (mvRx weanRx rlRx : RxList) (strict : Bool) (r : Record) : Bool :=
  matches_any mvRx (text_blob r) && matches_any weanRx (text_blob r) &&
    (matches_any rlRx (text_blob r) || !strict)

/-- The screened-in annotation of `apply_filters`. -/
def screen_in_row (mvRx weanRx rlRx : RxList) (r : Record) : Record :=
  { r with
    match_mv := matches_any mvRx (text_blob r)
    match_weaning := matches_any weanRx (text_blob r)
    match_rl := matches_any rlRx (text_blob r) }

/-- The screened-out annotation of `apply_filters`. -/
def screen_out_row (mvRx weanRx rlRx : RxList) (strict : Bool) (r : Record) : Record :=
  { r with
    auto_exclude_reason :=
      reason_str (matches_any mvRx (text_blob r)) (matches_any weanRx (text_blob r))
        (matches_any rlRx (text_blob r)) strict }

/-! ### Stage-2 abstract screening (`abs_matches_any`, `abstract_stage`) -/

/-- `abs_matches_any`: like `matches_any` but empty text never matches. -/
def abs_matches_any (rx_list : RxList) (text : String) : Bool :=
  if text = "" then false else rx_list.any (fun r => r text)

/-- The per-row annotation of `abstract_stage`: clean the abstract the
provider chain produced, re-match the three term families against it,
and set the stage-2 decision (`keep_no_abstract` on empty abstract,
`keep` when MV and RL both match, `drop_by_abstract` otherwise). -/
def abs_annotate (mvRx rlRx weanRx : RxList) (get_abs : Record → String)
    (r : Record) : Record :=
  let abs_clean := normalize_text (get_abs r)
  let mv := abs_matches_any mvRx abs_clean
  let rl := abs_matches_any rlRx abs_clean
  let wean := abs_matches_any weanRx abs_clean
  if abs_clean = "" then
    { r with abstract := "", match_mv_abs := false, match_wean_abs := false,
             match_rl_abs := false, decision := "keep_no_abstract" }
  else if mv && rl then
    { r with abstract := abs_clean, match_mv_abs := mv, match_wean_abs := wean,
             match_rl_abs := rl, decision := "keep" }
  else
    { r with abstract := abs_clean, match_mv_abs := mv, match_wean_abs := wean,
             match_rl_abs := rl, decision := "drop_by_abstract" }

/-- `abstract_stage(screened_rows)` restricted to its decision loop: the
provider chain is modelled by `get_abs`, the function giving the raw
abstract text resolved for each row.  Returns `(keepers, dropped)`. -/
def abstract_stage (mvRx rlRx weanRx : RxList) (get_abs : Record → String) :
    List Record → List Record × List Record
  | [] => ([], [])
  | r :: rest =>
    let abs_clean := normalize_text (get_abs r)
    let mv := abs_matches_any mvRx abs_clean
    let rl := abs_matches_any rlRx abs_clean
    let wean := abs_matches_any weanRx abs_clean
    let rest' := abstract_stage mvRx rlRx weanRx get_abs rest
    if abs_clean = "" then
      ({ r with abstract := "", match_mv_abs := false, match_wean_abs := false,
                match_rl_abs := false, decision := "keep_no_abstract" } :: rest'.1,
       rest'.2)
    else if mv && rl then
      ({ r with abstract := abs_clean, match_mv_abs := mv, match_wean_abs := wean,
                match_rl_abs := rl, decision := "keep" } :: rest'.1,
       rest'.2)
    else
      (rest'.1,
       { r with abstract := abs_clean, match_mv_abs := mv, match_wean_abs := wean,
                match_rl_abs := rl, decision := "drop_by_abstract" } :: rest'.2)

/-- `prisma["auto_screen_in_after_abstract"] = prisma["auto_screen_in"]
- abs_counts["dropped_by_abstract"]` (stage-2 update in `filter.py`'s
`main`). -/
def update_prisma_after_abstract (p : Prisma) (dropped_by_abstract : Int) : Prisma :=
  { p with
    auto_screen_in_after_abstract := some (p.auto_screen_in - dropped_by_abstract) }

/-! ### The rescue pass (`rescreen_excluded_with_abstracts.py`) -/

namespace Rescreen

/-- The rescue script's `matches_any` (empty text never matches). -/
def matches_any (rx_list : RxList) (text : String) : Bool :=
  if text = "" then false else rx_list.any (fun r => r text)

/-- The body of the rescue script's evaluation loop for one excluded
row: clean the abstract resolved by the provider chain (`get_abs`),
re-match, and decide `rescue` / `confirmed_exclude` / `keep_no_abstract`. -/
def annotate_row (mvRx weanRx rlRx : RxList) (strict : Bool)
    (get_abs : Record → String) (r : Record) : Record :=
  let abs_clean := normalize_text (get_abs r)
  let mv := matches_any mvRx abs_clean
  let wean := matches_any weanRx abs_clean
  let rl := matches_any rlRx abs_clean
  let d :=
    if abs_clean ≠ "" then
      if mv && wean && (rl || !strict) then "rescue" else "confirmed_exclude"
    else "keep_no_abstract"
  { r with abstract := abs_clean, match_mv_abs := mv, match_wean_abs := wean,
           match_rl_abs := rl, decision := d }

/-- `out_rows`: every excluded row, annotated. -/
def out_rows (mvRx weanRx rlRx : RxList) (strict : Bool)
    (get_abs : Record → String) (rows : List Record) : List Record :=
  rows.map (annotate_row mvRx weanRx rlRx strict get_abs)

/-- `keepers = [r for r in out_rows if r["decision"] != "confirmed_exclude"]`:
the rows the rescue pass emits. -/
def keepers (mvRx weanRx rlRx : RxList) (strict : Bool)
    (get_abs : Record → String) (rows : List Record) : List Record :=
  (out_rows mvRx weanRx rlRx strict get_abs rows).filter
    (fun o => o.decision ≠ "confirmed_exclude")

/-- The rescue script's PRISMA update: `auto_screen_in_after_abstract =
old_in + rescued` and `auto_screen_out_after_abstract = max(0, old_out -
rescued)`, read from the stage-1 counts. -/
def update_prisma (p : Prisma) (rescued : Int) : Prisma :=
  { p with
    auto_screen_in_after_abstract := some (p.auto_screen_in + rescued)
    auto_screen_out_after_abstract := some (max 0 (p.auto_screen_out - rescued)) }

end Rescreen

/-! ### Stage-1 characterisation lemmas -/

theorem apply_filters_eq (mvRx weanRx rlRx : RxList) (strict : Bool) :
    ∀ records : List Record,
      apply_filters mvRx weanRx rlRx strict records =
        ((records.filter (stage1_pred mvRx weanRx rlRx strict)).map
            (screen_in_row mvRx weanRx rlRx),
         (records.filter (fun r => !stage1_pred mvRx weanRx rlRx strict r)).map
            (screen_out_row mvRx weanRx rlRx strict))
  | [] => rfl
  | r :: rest => by
    have ih := apply_filters_eq mvRx weanRx rlRx strict rest
    simp only [apply_filters, ih, List.filter_cons]
    cases h : stage1_pred mvRx weanRx rlRx strict r with
    | true =>
      simp only [stage1_pred] at h
      simp [h, screen_in_row]
    | false =>
      simp only [stage1_pred] at h
      simp [h, screen_out_row]

theorem length_filter_bool {α : Type} (p : α → Bool) (l : List α) :
    (l.filter p).length + (l.filter (fun a => !p a)).length = l.length := by
  induction l with
  | nil => rfl
  | cons a l ih => cases h : p a <;> simp [List.filter_cons, h] <;> omega

theorem reason_str_ne_empty : ∀ a b c d : Bool, reason_str a b c d ≠ "" := by decide

/-- C2: `apply_filters` screens a merged record in exactly when its
title+venue+snippet blob matches an MV term and a weaning term and (an
RL term or strict mode is off); every other record is screened out with
the ordered reason codes (default `no_match`); the two partitions are
disjoint and their sizes sum to the input size. -/
theorem C2_stage1_partition (mvRx weanRx rlRx : RxList) (strict : Bool)
    (records : List Record)
    (hclean : ∀ r ∈ records, r.auto_exclude_reason = "") :
    (apply_filters mvRx weanRx rlRx strict records).1 =
        (records.filter (stage1_pred mvRx weanRx rlRx strict)).map
          (screen_in_row mvRx weanRx rlRx)
    ∧ (apply_filters mvRx weanRx rlRx strict records).2 =
        (records.filter (fun r => !stage1_pred mvRx weanRx rlRx strict r)).map
          (screen_out_row mvRx weanRx rlRx strict)
    ∧ (apply_filters mvRx weanRx rlRx strict records).1.length
        + (apply_filters mvRx weanRx rlRx strict records).2.length = records.length
    ∧ ∀ x ∈ (apply_filters mvRx weanRx rlRx strict records).1,
        x ∉ (apply_filters mvRx weanRx rlRx strict records).2 := by
  have he := apply_filters_eq mvRx weanRx rlRx strict records
  refine ⟨by rw [he], by rw [he], ?_, ?_⟩
  · rw [he]
    simpa using length_filter_bool (stage1_pred mvRx weanRx rlRx strict) records
  · intro x hx hx2
    rw [he] at hx hx2
    simp only [List.mem_map, List.mem_filter] at hx hx2
    obtain ⟨r, ⟨hr, _⟩, hxr⟩ := hx
    obtain ⟨r2, ⟨hr2, _⟩, hxr2⟩ := hx2
    have h1 : (screen_in_row mvRx weanRx rlRx r).auto_exclude_reason
        = r.auto_exclude_reason := rfl
    have h2 : (screen_out_row mvRx weanRx rlRx strict r2).auto_exclude_reason
        = reason_str (matches_any mvRx (text_blob r2)) (matches_any weanRx (text_blob r2))
            (matches_any rlRx (text_blob r2)) strict := rfl
    have hc := congrArg Record.auto_exclude_reason (hxr2.trans hxr.symm)
    rw [h1, h2, hclean r hr] at hc
    exact reason_str_ne_empty _ _ _ _ hc

def w2_rx : RxList := [fun _ => true]

def w2_records : List Record := [{ title := "t" }]

theorem C2_stage1_partition_witness :
    (∀ r ∈ w2_records, r.auto_exclude_reason = "") ∧
    (apply_filters w2_rx w2_rx w2_rx false w2_records).1.length
      + (apply_filters w2_rx w2_rx w2_rx false w2_records).2.length = w2_records.length :=
  ⟨by decide, (C2_stage1_partition w2_rx w2_rx w2_rx false w2_records (by decide)).2.2.1⟩

/-! ### Stage-2 characterisation lemmas -/

/-- The keep condition of the `abstract_stage` loop: keep on empty
cleaned abstract, else keep iff MV and RL both match. -/
def abs_keep_cond (mvRx rlRx : RxList) (get_abs : Record → String) (r : Record) : Bool :=
  if normalize_text (get_abs r) = "" then true
  else abs_matches_any mvRx (normalize_text (get_abs r))
        && abs_matches_any rlRx (normalize_text (get_abs r))

theorem abstract_stage_eq (mvRx rlRx weanRx : RxList) (get_abs : Record → String) :
    ∀ rows : List Record,
      abstract_stage mvRx rlRx weanRx get_abs rows =
        ((rows.filter (abs_keep_cond mvRx rlRx get_abs)).map
            (abs_annotate mvRx rlRx weanRx get_abs),
         (rows.filter (fun r => !abs_keep_cond mvRx rlRx get_abs r)).map
            (abs_annotate mvRx rlRx weanRx get_abs))
  | [] => rfl
  | r :: rest => by
    have ih := abstract_stage_eq mvRx rlRx weanRx get_abs rest
    simp only [abstract_stage, ih, List.filter_cons]
    by_cases hac : normalize_text (get_abs r) = ""
    · simp [abs_keep_cond, hac, abs_annotate]
    · cases h : abs_matches_any mvRx (normalize_text (get_abs r))
          && abs_matches_any rlRx (normalize_text (get_abs r)) with
      | true => simp [abs_keep_cond, hac, h, abs_annotate]
      | false => simp [abs_keep_cond, hac, h, abs_annotate]

theorem abs_annotate_decision_of_not_keep (mvRx rlRx weanRx : RxList)
    (get_abs : Record → String) (r : Record)
    (h : abs_keep_cond mvRx rlRx get_abs r = false) :
    (abs_annotate mvRx rlRx weanRx get_abs r).decision = "drop_by_abstract" := by
  by_cases hac : normalize_text (get_abs r) = ""
  · simp [abs_keep_cond, hac] at h
  · cases hmv : abs_matches_any mvRx (normalize_text (get_abs r)) <;>
      cases hrl : abs_matches_any rlRx (normalize_text (get_abs r)) <;>
      simp_all [abs_keep_cond, abs_annotate]

/-- C3: a screened-in record whose provider chain yields no abstract
text (whitespace-cleaned abstract empty) gets stage-2 decision
`keep_no_abstract`, lands among the keepers, and is never assigned
`drop_by_abstract`. -/
theorem C3_fail_open_no_abstract (mvRx rlRx weanRx : RxList) (get_abs : Record → String)
    (rows : List Record) (r : Record) (hr : r ∈ rows)
    (habs : normalize_text (get_abs r) = "") :
    (abs_annotate mvRx rlRx weanRx get_abs r).decision = "keep_no_abstract"
    ∧ (abs_annotate mvRx rlRx weanRx get_abs r).decision ≠ "drop_by_abstract"
    ∧ abs_annotate mvRx rlRx weanRx get_abs r
        ∈ (abstract_stage mvRx rlRx weanRx get_abs rows).1
    ∧ abs_annotate mvRx rlRx weanRx get_abs r
        ∉ (abstract_stage mvRx rlRx weanRx get_abs rows).2 := by
  have hdec : (abs_annotate mvRx rlRx weanRx get_abs r).decision = "keep_no_abstract" := by
    simp [abs_annotate, habs]
  have he := abstract_stage_eq mvRx rlRx weanRx get_abs rows
  refine ⟨hdec, by rw [hdec]; decide, ?_, ?_⟩
  · rw [he]
    exact List.mem_map_of_mem _
      (List.mem_filter.mpr ⟨hr, by simp [abs_keep_cond, habs]⟩)
  · rw [he]
    intro hmem
    simp only [List.mem_map, List.mem_filter, Bool.not_eq_true'] at hmem
    obtain ⟨r2, ⟨_, hk2⟩, heq⟩ := hmem
    have := abs_annotate_decision_of_not_keep mvRx rlRx weanRx get_abs r2 hk2
    rw [heq, hdec] at this
    exact absurd this (by decide)

def w3_records : List Record := [{ title := "t" }]

theorem C3_fail_open_no_abstract_witness :
    normalize_text ((fun _ : Record => "") ({ title := "t" } : Record)) = ""
    ∧ (abs_annotate [] [] [] (fun _ => "") ({ title := "t" } : Record)).decision
        = "keep_no_abstract" :=
  ⟨by decide,
   (C3_fail_open_no_abstract [] [] [] (fun _ => "") w3_records { title := "t" }
      (by decide) (by decide)).1⟩

/-- C4: on a non-empty cleaned abstract, the stage-2 decision is `keep`
iff the abstract matches an MV term and an RL term, and
`drop_by_abstract` otherwise; the weaning match is recorded in
`match_wean_abs` but never influences the decision. -/
theorem C4_abstract_decision (mvRx rlRx weanRx : RxList) (get_abs : Record → String)
    (r : Record) (hne : normalize_text (get_abs r) ≠ "") :
    ((abs_annotate mvRx rlRx weanRx get_abs r).decision = "keep"
       ↔ (abs_matches_any mvRx (normalize_text (get_abs r))
            && abs_matches_any rlRx (normalize_text (get_abs r))) = true)
    ∧ ((abs_annotate mvRx rlRx weanRx get_abs r).decision = "drop_by_abstract"
       ↔ (abs_matches_any mvRx (normalize_text (get_abs r))
            && abs_matches_any rlRx (normalize_text (get_abs r))) = false)
    ∧ (abs_annotate mvRx rlRx weanRx get_abs r).match_wean_abs
        = abs_matches_any weanRx (normalize_text (get_abs r))
    ∧ ∀ weanRx2 : RxList,
        (abs_annotate mvRx rlRx weanRx2 get_abs r).decision
          = (abs_annotate mvRx rlRx weanRx get_abs r).decision := by
  cases h : abs_matches_any mvRx (normalize_text (get_abs r))
      && abs_matches_any rlRx (normalize_text (get_abs r)) with
  | true =>
    refine ⟨by simp [abs_annotate, hne, h], by simp [abs_annotate, hne, h], ?_, ?_⟩
    · simp [abs_annotate, hne, h]
    · intro weanRx2; simp [abs_annotate, hne, h]
  | false =>
    refine ⟨by simp [abs_annotate, hne, h], by simp [abs_annotate, hne, h], ?_, ?_⟩
    · simp [abs_annotate, hne, h]
    · intro weanRx2; simp [abs_annotate, hne, h]

def w4_rx : RxList := [fun _ => true]

theorem C4_abstract_decision_witness :
    normalize_text ((fun _ : Record => "a") ({} : Record)) ≠ ""
    ∧ ((abs_annotate w4_rx w4_rx [] (fun _ => "a") ({} : Record)).decision = "keep"
       ↔ (abs_matches_any w4_rx (normalize_text ((fun _ : Record => "a") ({} : Record)))
            && abs_matches_any w4_rx (normalize_text ((fun _ : Record => "a") ({} : Record))))
           = true) :=
  ⟨by decide,
   (C4_abstract_decision w4_rx w4_rx [] (fun _ => "a") ({} : Record) (by decide)).1⟩

/-! ### Rescue-pass lemmas and claims -/

theorem rescreen_annotate_abstract (mvRx weanRx rlRx : RxList) (strict : Bool)
    (get_abs : Record → String) (r : Record) :
    (Rescreen.annotate_row mvRx weanRx rlRx strict get_abs r).abstract
      = normalize_text (get_abs r) := rfl

theorem rescreen_annotate_decision (mvRx weanRx rlRx : RxList) (strict : Bool)
    (get_abs : Record → String) (r : Record) :
    (Rescreen.annotate_row mvRx weanRx rlRx strict get_abs r).decision
      = if normalize_text (get_abs r) ≠ "" then
          if Rescreen.matches_any mvRx (normalize_text (get_abs r))
              && Rescreen.matches_any weanRx (normalize_text (get_abs r))
              && (Rescreen.matches_any rlRx (normalize_text (get_abs r)) || !strict)
          then "rescue" else "confirmed_exclude"
        else "keep_no_abstract" := rfl

/-- C5: the rescue pass decides `rescue` on a non-empty abstract exactly
when it matches MV and weaning evidence and (RL evidence or strict mode
off), `confirmed_exclude` otherwise, and `keep_no_abstract` when no
abstract was obtained; the emitted keepers are exactly the `rescue` and
`keep_no_abstract` rows, and every emitted `rescue` row satisfies the
evidence predicate over its stored abstract text. -/
theorem C5_rescue_pass (mvRx weanRx rlRx : RxList) (strict : Bool)
    (get_abs : Record → String) (rows : List Record) (r : Record) (hr : r ∈ rows) :
    (normalize_text (get_abs r) ≠ "" →
      (((Rescreen.annotate_row mvRx weanRx rlRx strict get_abs r).decision = "rescue")
        ↔ (Rescreen.matches_any mvRx (normalize_text (get_abs r))
            && Rescreen.matches_any weanRx (normalize_text (get_abs r))
            && (Rescreen.matches_any rlRx (normalize_text (get_abs r)) || !strict)) = true)
      ∧ (((Rescreen.annotate_row mvRx weanRx rlRx strict get_abs r).decision
            = "confirmed_exclude")
        ↔ (Rescreen.matches_any mvRx (normalize_text (get_abs r))
            && Rescreen.matches_any weanRx (normalize_text (get_abs r))
            && (Rescreen.matches_any rlRx (normalize_text (get_abs r)) || !strict)) = false))
    ∧ (normalize_text (get_abs r) = "" →
        (Rescreen.annotate_row mvRx weanRx rlRx strict get_abs r).decision
          = "keep_no_abstract")
    ∧ Rescreen.annotate_row mvRx weanRx rlRx strict get_abs r
        ∈ Rescreen.out_rows mvRx weanRx rlRx strict get_abs rows
    ∧ (Rescreen.annotate_row mvRx weanRx rlRx strict get_abs r
          ∈ Rescreen.keepers mvRx weanRx rlRx strict get_abs rows
        ↔ (Rescreen.annotate_row mvRx weanRx rlRx strict get_abs r).decision
            ≠ "confirmed_exclude")
    ∧ (∀ o ∈ Rescreen.keepers mvRx weanRx rlRx strict get_abs rows,
        o.decision = "rescue" ∨ o.decision = "keep_no_abstract")
    ∧ (∀ o ∈ Rescreen.keepers mvRx weanRx rlRx strict get_abs rows,
        o.decision = "rescue" →
          (Rescreen.matches_any mvRx o.abstract
            && Rescreen.matches_any weanRx o.abstract
            && (Rescreen.matches_any rlRx o.abstract || !strict)) = true) := by
  have hdec := rescreen_annotate_decision mvRx weanRx rlRx strict get_abs
  have htri : ∀ r2 : Record,
      (Rescreen.annotate_row mvRx weanRx rlRx strict get_abs r2).decision = "rescue"
        ∨ (Rescreen.annotate_row mvRx weanRx rlRx strict get_abs r2).decision
            = "confirmed_exclude"
        ∨ (Rescreen.annotate_row mvRx weanRx rlRx strict get_abs r2).decision
            = "keep_no_abstract" := by
    intro r2
    rw [hdec r2]
    by_cases hac : normalize_text (get_abs r2) = ""
    · simp [hac]
    · cases hp : Rescreen.matches_any mvRx (normalize_text (get_abs r2))
          && Rescreen.matches_any weanRx (normalize_text (get_abs r2))
          && (Rescreen.matches_any rlRx (normalize_text (get_abs r2)) || !strict) <;>
        simp [hac, hp]
  have hrescue : ∀ r2 : Record,
      (Rescreen.annotate_row mvRx weanRx rlRx strict get_abs r2).decision = "rescue" →
        (Rescreen.matches_any mvRx
            (Rescreen.annotate_row mvRx weanRx rlRx strict get_abs r2).abstract
          && Rescreen.matches_any weanRx
            (Rescreen.annotate_row mvRx weanRx rlRx strict get_abs r2).abstract
          && (Rescreen.matches_any rlRx
                (Rescreen.annotate_row mvRx weanRx rlRx strict get_abs r2).abstract
              || !strict)) = true := by
    intro r2 h2
    rw [rescreen_annotate_abstract]
    rw [hdec r2] at h2
    by_cases hac : normalize_text (get_abs r2) = ""
    · simp [hac] at h2
    · cases hp : Rescreen.matches_any mvRx (normalize_text (get_abs r2))
          && Rescreen.matches_any weanRx (normalize_text (get_abs r2))
          && (Rescreen.matches_any rlRx (normalize_text (get_abs r2)) || !strict)
      · simp [hac, hp] at h2
      · rfl
  refine ⟨?_, ?_, ?_, ?_, ?_, ?_⟩
  · intro hne
    rw [hdec r, if_pos hne]
    cases hp : Rescreen.matches_any mvRx (normalize_text (get_abs r))
        && Rescreen.matches_any weanRx (normalize_text (get_abs r))
        && (Rescreen.matches_any rlRx (normalize_text (get_abs r)) || !strict) <;>
      simp [hp]
  · intro hac
    rw [hdec r]
    simp [hac]
  · exact List.mem_map_of_mem _ hr
  · constructor
    · intro hmem
      exact of_decide_eq_true (List.mem_filter.mp hmem).2
    · intro hne
      exact List.mem_filter.mpr ⟨List.mem_map_of_mem _ hr, decide_eq_true hne⟩
  · intro o ho
    have hmem := List.mem_filter.mp ho
    have hne : o.decision ≠ "confirmed_exclude" := of_decide_eq_true hmem.2
    obtain ⟨r2, _, rfl⟩ := List.mem_map.mp hmem.1
    rcases htri r2 with h | h | h
    · exact Or.inl h
    · exact absurd h hne
    · exact Or.inr h
  · intro o ho hresc
    have hmem := List.mem_filter.mp ho
    obtain ⟨r2, _, rfl⟩ := List.mem_map.mp hmem.1
    exact hrescue r2 hresc

def w5_rx : RxList := [fun _ => true]

def w5_rows : List Record := [{ title := "t" }]

theorem C5_rescue_pass_witness :
    ({ title := "t" } : Record) ∈ w5_rows
    ∧ ((normalize_text ((fun _ : Record => "a") ({ title := "t" } : Record)) = "" →
        (Rescreen.annotate_row w5_rx w5_rx w5_rx false (fun _ => "a")
            ({ title := "t" } : Record)).decision = "keep_no_abstract")) :=
  ⟨by decide,
   (C5_rescue_pass w5_rx w5_rx w5_rx false (fun _ => "a") w5_rows
      { title := "t" } (by decide)).2.1⟩

/-! ### DOI precedence (C6) -/

/-- C6: when exactly one of the two colliding records has a non-empty
DOI, `better_record` returns the record with the DOI, regardless of
titles and sources. -/
theorem C6_doi_precedence (a b : Record) :
    (a.doi ≠ "" → b.doi = "" → better_record a b = a)
    ∧ (b.doi ≠ "" → a.doi = "" → better_record a b = b) := by
  constructor
  · intro h1 h2
    unfold better_record
    rw [if_pos ⟨h1, h2⟩]
  · intro h1 h2
    unfold better_record
    rw [if_neg (fun h => h.1 h2), if_pos ⟨h1, h2⟩]

def w6_a : Record := { doi := "10.1/x" }

def w6_b : Record := { title := "a much longer title", source := "web_of_science" }

theorem C6_doi_precedence_witness :
    w6_a.doi ≠ "" ∧ w6_b.doi = "" ∧ better_record w6_a w6_b = w6_a :=
  ⟨by decide, by decide, (C6_doi_precedence w6_a w6_b).1 (by decide) (by decide)⟩

/-! ### Source-priority tie-break (C1) -/

def c1_first : Record := { source := "scopus", title := "t" }

def c1_second : Record := { source := "web_of_science", title := "t" }

/-- C1: the failing input for the source-priority tie-break.  Both
records lack a DOI and have equal title lengths, and the second-seen
record's source (`web_of_science`) precedes the first-seen record's
source (`scopus`) in `SOURCE_PRIORITY`; yet `better_record` returns the
first-seen record — its source-priority comparison can never return the
second argument. -/
theorem C1_source_priority_dead_branch :
    better_record c1_first c1_second = c1_first
    ∧ list_index c1_second.source SOURCE_PRIORITY
        < list_index c1_first.source SOURCE_PRIORITY
    ∧ c1_first.doi = "" ∧ c1_second.doi = ""
    ∧ c1_first.title.length = c1_second.title.length
    ∧ c1_first.source ≠ c1_second.source := by
  exact ⟨by decide, by decide, rfl, rfl, rfl, by decide⟩

/-! ### Strict-RL switch (C9) -/

def c9_any : RxList := [fun _ => true]

def c9_abs : Record → String := fun _ => "x"

/-- C9 counterexample: toggling the strict-RL switch changes the rescue
pass's decision on a record whose abstract matches MV and weaning terms
but no RL term (`confirmed_exclude` under strict mode, `rescue`
otherwise), refuting the claim that the switch affects only stage 1. -/
theorem C9_counterexample :
    (Rescreen.annotate_row c9_any c9_any [] true c9_abs ({} : Record)).decision
      ≠ (Rescreen.annotate_row c9_any c9_any [] false c9_abs ({} : Record)).decision := by
  decide

/-- C9 amended: in the rescue pass the two strict settings give the same
decision on a record exactly when the settings coincide or the record's
cleaned abstract is empty or fails the MV-and-weaning-but-no-RL pattern;
the stage-2 decision never reads the switch (its code takes no such
input). -/
theorem C9_amended_strict_scope (mvRx weanRx rlRx : RxList) (get_abs : Record → String)
    (r : Record) (s1 s2 : Bool) :
    (Rescreen.annotate_row mvRx weanRx rlRx s1 get_abs r).decision
        = (Rescreen.annotate_row mvRx weanRx rlRx s2 get_abs r).decision
      ↔ (s1 = s2 ∨
          ¬(normalize_text (get_abs r) ≠ ""
            ∧ Rescreen.matches_any mvRx (normalize_text (get_abs r)) = true
            ∧ Rescreen.matches_any weanRx (normalize_text (get_abs r)) = true
            ∧ Rescreen.matches_any rlRx (normalize_text (get_abs r)) = false)) := by
  by_cases hac : normalize_text (get_abs r) = "" <;>
    cases s1 <;> cases s2 <;>
    cases hmv : Rescreen.matches_any mvRx (normalize_text (get_abs r)) <;>
    cases hw : Rescreen.matches_any weanRx (normalize_text (get_abs r)) <;>
    cases hrl : Rescreen.matches_any rlRx (normalize_text (get_abs r)) <;>
    simp [Rescreen.annotate_row, hac, hmv, hw, hrl]

/-! ### PRISMA updates (C10) -/

/-- C10: the rescue pass's PRISMA update derives the after-abstract
totals from the pre-abstract stage-1 counts (`auto_screen_in + rescued`
and `max(0, auto_screen_out - rescued)`), overwriting whatever value the
stage-2 update stored, so the stage-2 drop count never survives into the
derived screen-in total. -/
theorem C10_prisma_rescue_overwrites (p : Prisma) (dropped dropped2 rescued : Int) :
    (Rescreen.update_prisma (update_prisma_after_abstract p dropped) rescued).auto_screen_in_after_abstract
        = some (p.auto_screen_in + rescued)
    ∧ (Rescreen.update_prisma (update_prisma_after_abstract p dropped) rescued).auto_screen_out_after_abstract
        = some (max 0 (p.auto_screen_out - rescued))
    ∧ Rescreen.update_prisma (update_prisma_after_abstract p dropped) rescued
        = Rescreen.update_prisma (update_prisma_after_abstract p dropped2) rescued
    ∧ (update_prisma_after_abstract p dropped).auto_screen_in_after_abstract
        = some (p.auto_screen_in - dropped) :=
  ⟨rfl, rfl, rfl, rfl⟩

/-! ### Association-list lemmas for the dedup dicts -/

theorem alist_find?_eq_none {m : StrDict} {k : String}
    (h : k ∉ m.map Prod.fst) : alist_find? m k = none := by
  induction m with
  | nil => rfl
  | cons e rest ih =>
    obtain ⟨k', v⟩ := e
    simp only [List.map_cons, List.mem_cons] at h
    push_neg at h
    have hne : ¬(k' = k) := fun he => h.1 he.symm
    simp only [alist_find?]
    rw [if_neg hne]
    exact ih h.2

theorem alist_find?_mem {m : StrDict} {k : String} {v : Record}
    (h : alist_find? m k = some v) : (k, v) ∈ m := by
  induction m with
  | nil => simp [alist_find?] at h
  | cons e rest ih =>
    obtain ⟨k', v'⟩ := e
    by_cases hk : k' = k
    · subst hk
      simp only [alist_find?] at h
      rw [if_pos trivial] at h
      obtain rfl := Option.some.inj h
      exact List.mem_cons_self _ _
    · simp only [alist_find?] at h
      rw [if_neg hk] at h
      exact List.mem_cons_of_mem _ (ih h)

theorem alist_insert_of_not_mem {m : StrDict} {k : String} (v : Record)
    (h : k ∉ m.map Prod.fst) : alist_insert m k v = m ++ [(k, v)] := by
  induction m with
  | nil => rfl
  | cons e rest ih =>
    obtain ⟨k', v'⟩ := e
    simp only [List.map_cons, List.mem_cons] at h
    push_neg at h
    have hne : ¬(k' = k) := fun he => h.1 he.symm
    simp only [alist_insert]
    rw [if_neg hne, ih h.2]
    rfl

theorem keys_alist_insert_of_mem {m : StrDict} {k : String} (v : Record)
    (h : k ∈ m.map Prod.fst) :
    (alist_insert m k v).map Prod.fst = m.map Prod.fst := by
  induction m with
  | nil => simp at h
  | cons e rest ih =>
    obtain ⟨k', v'⟩ := e
    by_cases hk : k' = k
    · subst hk
      simp only [alist_insert]
      rw [if_pos trivial]
      simp
    · simp only [List.map_cons, List.mem_cons] at h
      rcases h with h | h
      · exact absurd h.symm hk
      · simp only [alist_insert]
        rw [if_neg hk]
        simp only [List.map_cons, ih h]

theorem mem_keys_alist_insert_self (m : StrDict) (k : String) (v : Record) :
    k ∈ (alist_insert m k v).map Prod.fst := by
  induction m with
  | nil => simp [alist_insert]
  | cons e rest ih =>
    obtain ⟨k', v'⟩ := e
    by_cases hk : k' = k
    · subst hk
      simp only [alist_insert]
      rw [if_pos trivial]
      simp
    · simp only [alist_insert]
      rw [if_neg hk]
      simp only [List.map_cons, List.mem_cons]
      exact Or.inr ih

theorem mem_keys_alist_insert_of_mem {m : StrDict} {k2 : String} (k : String) (v : Record)
    (h : k2 ∈ m.map Prod.fst) : k2 ∈ (alist_insert m k v).map Prod.fst := by
  induction m with
  | nil => simp at h
  | cons e rest ih =>
    obtain ⟨k', v'⟩ := e
    simp only [List.map_cons, List.mem_cons] at h
    by_cases hk : k' = k
    · subst hk
      simp only [alist_insert]
      rw [if_pos trivial]
      simpa using h
    · simp only [alist_insert]
      rw [if_neg hk]
      simp only [List.map_cons, List.mem_cons]
      rcases h with h | h
      · exact Or.inl h
      · exact Or.inr (ih h)

theorem mem_alist_insert {m : StrDict} {k : String} {v : Record} {e : String × Record}
    (h : e ∈ alist_insert m k v) : e ∈ m ∨ e = (k, v) := by
  induction m with
  | nil => simpa [alist_insert] using h
  | cons e' rest ih =>
    obtain ⟨k', v'⟩ := e'
    by_cases hk : k' = k
    · subst hk
      simp only [alist_insert] at h
      rw [if_pos trivial] at h
      rcases List.mem_cons.mp h with h | h
      · exact Or.inr h
      · exact Or.inl (List.mem_cons_of_mem _ h)
    · simp only [alist_insert] at h
      rw [if_neg hk] at h
      rcases List.mem_cons.mp h with h | h
      · exact Or.inl (h ▸ List.mem_cons_self _ _)
      · rcases ih h with h2 | h2
        · exact Or.inl (List.mem_cons_of_mem _ h2)
        · exact Or.inr h2

theorem nodup_keys_alist_insert {m : StrDict} {k : String} (v : Record)
    (h : (m.map Prod.fst).Nodup) :
    ((alist_insert m k v).map Prod.fst).Nodup := by
  by_cases hk : k ∈ m.map Prod.fst
  · rw [keys_alist_insert_of_mem v hk]; exact h
  · rw [alist_insert_of_not_mem v hk, List.map_append]
    refine h.append (List.nodup_singleton k) ?_
    intro a ha hb
    simp only [List.map_cons, List.map_nil, List.mem_singleton] at hb
    subst hb
    exact hk ha

theorem length_alist_insert_le (m : StrDict) (k : String) (v : Record) :
    (alist_insert m k v).length ≤ m.length + 1 := by
  induction m with
  | nil => simp [alist_insert]
  | cons e rest ih =>
    obtain ⟨k', v'⟩ := e
    by_cases hk : k' = k
    · subst hk
      simp only [alist_insert]
      rw [if_pos trivial]
      simp
    · simp only [alist_insert]
      rw [if_neg hk]
      simp only [List.length_cons]
      omega

/-! ### Dedup loop invariants -/

theorem better_record_cases (a b : Record) :
    better_record a b = a ∨ better_record a b = b := by
  unfold better_record
  repeat' split
  all_goals simp

/-- The value a colliding insertion stores: the tie-break winner against
the previously stored record, or the record itself on a fresh key. -/
def stored_val (m : StrDict) (k : String) (r : Record) : Record :=
  match alist_find? m k with
  | some old => better_record old r
  | none => r

theorem stored_val_prop {m : StrDict} {k : String} {r : Record} (P : Record → Prop)
    (hr : P r) (hold : ∀ old, (k, old) ∈ m → P old) : P (stored_val m k r) := by
  unfold stored_val
  cases hf : alist_find? m k with
  | none => exact hr
  | some old =>
    show P (better_record old r)
    rcases better_record_cases old r with h | h <;> rw [h]
    · exact hold old (alist_find?_mem hf)
    · exact hr

theorem dedup_step_doi {st : DedupState} {r : Record} (h : doi_key r ≠ "") :
    dedup_step st r =
      { st with by_doi := alist_insert st.by_doi (doi_key r)
                  (stored_val st.by_doi (doi_key r) r) } := by
  unfold dedup_step stored_val
  rw [if_pos h]
  cases alist_find? st.by_doi (doi_key r) <;> rfl

theorem dedup_step_kept {st : DedupState} {r : Record} (h1 : doi_key r = "")
    (h2 : norm_title_key r.title = "") :
    dedup_step st r = { st with kept := st.kept ++ [r] } := by
  unfold dedup_step
  rw [if_neg (not_not_intro h1), if_pos h2]

theorem dedup_step_title {st : DedupState} {r : Record} (h1 : doi_key r = "")
    (h2 : norm_title_key r.title ≠ "") :
    dedup_step st r =
      { st with by_title := alist_insert st.by_title (full_title_key r)
                  (stored_val st.by_title (full_title_key r) r) } := by
  unfold dedup_step stored_val
  rw [if_neg (not_not_intro h1), if_neg h2]
  cases alist_find? st.by_title (full_title_key r) <;> rfl

/-- The invariant of the `deduplicate` loop state: dict keys are
distinct, each stored record carries the key it is filed under, and the
`kept` records are identity-less. -/
structure DedupInv (st : DedupState) : Prop where
  doi_nodup : (st.by_doi.map Prod.fst).Nodup
  title_nodup : (st.by_title.map Prod.fst).Nodup
  doi_ok : ∀ e ∈ st.by_doi, doi_key e.2 = e.1 ∧ e.1 ≠ ""
  title_ok : ∀ e ∈ st.by_title,
    doi_key e.2 = "" ∧ norm_title_key e.2.title ≠ "" ∧ full_title_key e.2 = e.1
  kept_ok : ∀ v ∈ st.kept, doi_key v = "" ∧ norm_title_key v.title = ""

theorem dedup_step_inv {st : DedupState} (r : Record) (h : DedupInv st) :
    DedupInv (dedup_step st r) := by
  by_cases h1 : doi_key r = ""
  · by_cases h2 : norm_title_key r.title = ""
    · rw [dedup_step_kept h1 h2]
      refine ⟨h.doi_nodup, h.title_nodup, h.doi_ok, h.title_ok, ?_⟩
      intro v hv
      rcases List.mem_append.mp hv with hv | hv
      · exact h.kept_ok v hv
      · simp only [List.mem_singleton] at hv
        subst hv
        exact ⟨h1, h2⟩
    · rw [dedup_step_title h1 h2]
      refine ⟨h.doi_nodup, nodup_keys_alist_insert _ h.title_nodup, h.doi_ok, ?_, h.kept_ok⟩
      intro e he
      rcases mem_alist_insert he with he | he
      · exact h.title_ok e he
      · subst he
        have hv := stored_val_prop
          (fun v => doi_key v = "" ∧ norm_title_key v.title ≠ ""
            ∧ full_title_key v = full_title_key r)
          ⟨h1, h2, rfl⟩
          (fun old hold => by
            have := h.title_ok _ hold
            exact ⟨this.1, this.2.1, this.2.2⟩)
        exact ⟨hv.1, hv.2.1, hv.2.2⟩
  · rw [dedup_step_doi h1]
    refine ⟨nodup_keys_alist_insert _ h.doi_nodup, h.title_nodup, ?_, h.title_ok, h.kept_ok⟩
    intro e he
    rcases mem_alist_insert he with he | he
    · exact h.doi_ok e he
    · subst he
      have hv := stored_val_prop (fun v => doi_key v = doi_key r) rfl
        (fun old hold => (h.doi_ok _ hold).1)
      exact ⟨hv, h1⟩

theorem foldl_dedup_inv : ∀ (rs : List Record) (st : DedupState), DedupInv st →
    DedupInv (rs.foldl dedup_step st)
  | [], _, h => h
  | r :: rs, _, h => foldl_dedup_inv rs _ (dedup_step_inv r h)

theorem dedup_step_mono (st : DedupState) (r : Record) :
    (∀ k ∈ st.by_doi.map Prod.fst, k ∈ (dedup_step st r).by_doi.map Prod.fst)
    ∧ (∀ k ∈ st.by_title.map Prod.fst, k ∈ (dedup_step st r).by_title.map Prod.fst)
    ∧ (∀ v ∈ st.kept, v ∈ (dedup_step st r).kept) := by
  by_cases h1 : doi_key r = ""
  · by_cases h2 : norm_title_key r.title = ""
    · rw [dedup_step_kept h1 h2]
      exact ⟨fun _ hk => hk, fun _ hk => hk, fun _ hv => List.mem_append_left _ hv⟩
    · rw [dedup_step_title h1 h2]
      exact ⟨fun _ hk => hk, fun _ hk => mem_keys_alist_insert_of_mem _ _ hk, fun _ hv => hv⟩
  · rw [dedup_step_doi h1]
    exact ⟨fun _ hk => mem_keys_alist_insert_of_mem _ _ hk, fun _ hk => hk, fun _ hv => hv⟩

theorem foldl_dedup_mono : ∀ (rs : List Record) (st : DedupState),
    (∀ k ∈ st.by_doi.map Prod.fst, k ∈ ((rs.foldl dedup_step st).by_doi.map Prod.fst))
    ∧ (∀ k ∈ st.by_title.map Prod.fst, k ∈ ((rs.foldl dedup_step st).by_title.map Prod.fst))
    ∧ (∀ v ∈ st.kept, v ∈ (rs.foldl dedup_step st).kept)
  | [], _ => ⟨fun _ hk => hk, fun _ hk => hk, fun _ hv => hv⟩
  | r :: rs, st => by
    have hs := dedup_step_mono st r
    have hf := foldl_dedup_mono rs (dedup_step st r)
    exact ⟨fun k hk => hf.1 k (hs.1 k hk), fun k hk => hf.2.1 k (hs.2.1 k hk),
           fun v hv => hf.2.2 v (hs.2.2 v hv)⟩

/-- Where a processed record is accounted for in the loop state: its
identity key is present in the matching dict, or the record itself sits
in `kept`. -/
def in_bucket (r : Record) (st : DedupState) : Prop :=
  if doi_key r ≠ "" then doi_key r ∈ st.by_doi.map Prod.fst
  else if norm_title_key r.title ≠ "" then full_title_key r ∈ st.by_title.map Prod.fst
  else r ∈ st.kept

theorem in_bucket_mono {r : Record} {st st2 : DedupState}
    (hd : ∀ k ∈ st.by_doi.map Prod.fst, k ∈ st2.by_doi.map Prod.fst)
    (ht : ∀ k ∈ st.by_title.map Prod.fst, k ∈ st2.by_title.map Prod.fst)
    (hk : ∀ v ∈ st.kept, v ∈ st2.kept)
    (h : in_bucket r st) : in_bucket r st2 := by
  unfold in_bucket at h ⊢
  by_cases h1 : doi_key r ≠ ""
  · rw [if_pos h1] at h ⊢
    exact hd _ h
  · rw [if_neg h1] at h ⊢
    by_cases h2 : norm_title_key r.title ≠ ""
    · rw [if_pos h2] at h ⊢
      exact ht _ h
    · rw [if_neg h2] at h ⊢
      exact hk _ h

theorem dedup_step_reach (st : DedupState) (r : Record) :
    in_bucket r (dedup_step st r) := by
  unfold in_bucket
  by_cases h1 : doi_key r ≠ ""
  · rw [if_pos h1, dedup_step_doi h1]
    exact mem_keys_alist_insert_self _ _ _
  · rw [if_neg h1]
    have h1' : doi_key r = "" := of_not_not h1
    by_cases h2 : norm_title_key r.title ≠ ""
    · rw [if_pos h2, dedup_step_title h1' h2]
      exact mem_keys_alist_insert_self _ _ _
    · rw [if_neg h2, dedup_step_kept h1' (of_not_not h2)]
      exact List.mem_append_right _ (List.mem_singleton.mpr rfl)

theorem foldl_dedup_reach : ∀ (rs : List Record) (st : DedupState) (r : Record),
    r ∈ rs → in_bucket r (rs.foldl dedup_step st)
  | [], _, r, hr => absurd hr (List.not_mem_nil r)
  | r' :: rs, st, r, hr => by
    rcases List.mem_cons.mp hr with h | h
    · subst h
      have hm := foldl_dedup_mono rs (dedup_step st r)
      exact in_bucket_mono hm.1 hm.2.1 hm.2.2 (dedup_step_reach st r)
    · exact foldl_dedup_reach rs (dedup_step st r') r h

/-- Total number of records held by the loop state. -/
def DedupState.size (st : DedupState) : Nat :=
  st.kept.length + st.by_doi.length + st.by_title.length

theorem dedup_step_size (st : DedupState) (r : Record) :
    (dedup_step st r).size ≤ st.size + 1 := by
  by_cases h1 : doi_key r = ""
  · by_cases h2 : norm_title_key r.title = ""
    · rw [dedup_step_kept h1 h2]
      simp only [DedupState.size, List.length_append, List.length_singleton]
      omega
    · rw [dedup_step_title h1 h2]
      have := length_alist_insert_le st.by_title (full_title_key r)
        (stored_val st.by_title (full_title_key r) r)
      simp only [DedupState.size]
      omega
  · rw [dedup_step_doi h1]
    have := length_alist_insert_le st.by_doi (doi_key r)
      (stored_val st.by_doi (doi_key r) r)
    simp only [DedupState.size]
    omega

theorem foldl_dedup_size : ∀ (rs : List Record) (st : DedupState),
    (rs.foldl dedup_step st).size ≤ st.size + rs.length
  | [], st => by simp
  | r :: rs, st => by
    have h1 := dedup_step_size st r
    have h2 := foldl_dedup_size rs (dedup_step st r)
    simp only [List.foldl_cons, List.length_cons]
    omega

/-! ### Identity-key and counting lemmas -/

theorem id_key_of_doi {r : Record} (h : doi_key r ≠ "") :
    id_key r = .doiK (doi_key r) := by
  unfold id_key
  rw [if_pos h]

theorem id_key_of_title {r : Record} (h1 : doi_key r = "")
    (h2 : norm_title_key r.title ≠ "") :
    id_key r = .titleK (full_title_key r) := by
  unfold id_key
  rw [if_neg (not_not_intro h1), if_pos h2]

theorem id_key_of_none {r : Record} (h1 : doi_key r = "")
    (h2 : norm_title_key r.title = "") : id_key r = .noKey := by
  unfold id_key
  rw [if_neg (not_not_intro h1), if_neg (not_not_intro h2)]

theorem countP_congr_on {α : Type} {l : List α} {p q : α → Bool}
    (h : ∀ a ∈ l, p a = q a) : l.countP p = l.countP q := by
  induction l with
  | nil => rfl
  | cons a l ih =>
    simp only [List.countP_cons, h a (List.mem_cons_self a l),
      ih (fun b hb => h b (List.mem_cons_of_mem a hb))]

theorem countP_vals_zero {m : StrDict} (p : Record → Bool)
    (h : ∀ e ∈ m, p e.2 = false) : (m.map Prod.snd).countP p = 0 := by
  apply List.countP_eq_zero.mpr
  intro a ha
  obtain ⟨e, he, rfl⟩ := List.mem_map.mp ha
  simp [h e he]

theorem countP_vals_keyed {m : StrDict} (f : Record → String)
    (hok : ∀ e ∈ m, f e.2 = e.1) (hnd : (m.map Prod.fst).Nodup) {k : String}
    (hk : k ∈ m.map Prod.fst) :
    (m.map Prod.snd).countP (fun v => decide (f v = k)) = 1 := by
  induction m with
  | nil => simp at hk
  | cons e rest ih =>
    obtain ⟨k', v⟩ := e
    have hfv : f v = k' := hok (k', v) (List.mem_cons_self _ _)
    simp only [List.map_cons, List.nodup_cons] at hnd
    simp only [List.map_cons, List.mem_cons] at hk
    simp only [List.map_cons, List.countP_cons]
    by_cases hkk : k' = k
    · subst hkk
      have hz : (rest.map Prod.snd).countP (fun v => decide (f v = k')) = 0 := by
        apply List.countP_eq_zero.mpr
        intro a ha hp
        obtain ⟨e2, he2, rfl⟩ := List.mem_map.mp ha
        have h2 : f e2.2 = e2.1 := hok e2 (List.mem_cons_of_mem _ he2)
        have h3 : e2.1 = k' := h2.symm.trans (of_decide_eq_true hp)
        exact hnd.1 (h3 ▸ List.mem_map.mpr ⟨e2, he2, rfl⟩)
      simp [hz, hfv]
    · rcases hk with hk | hk
      · exact absurd hk.symm hkk
      · have hrest := ih (fun e2 he2 => hok e2 (List.mem_cons_of_mem _ he2)) hnd.2 hk
        simp [hrest, hfv, hkk]

/-- Per-state form of merge totality: under the loop invariant, a record
accounted for in the state is represented exactly once (via its identity
key) in the emitted output, and an identity-less record is emitted
as-is. -/
theorem dedup_state_count {st : DedupState} (hinv : DedupInv st) (r : Record)
    (hreach : in_bucket r st) :
    (id_key r = .noKey →
      r ∈ st.kept ++ st.by_doi.map Prod.snd ++ st.by_title.map Prod.snd)
    ∧ (id_key r ≠ .noKey →
      (st.kept ++ st.by_doi.map Prod.snd ++ st.by_title.map Prod.snd).countP
        (fun o => decide (id_key o = id_key r)) = 1) := by
  by_cases h1 : doi_key r ≠ ""
  · have hk2 := id_key_of_doi h1
    unfold in_bucket at hreach
    rw [if_pos h1] at hreach
    constructor
    · intro hk
      rw [hk2] at hk
      exact absurd hk (by simp)
    · intro _
      rw [List.countP_append, List.countP_append]
      have hkept : st.kept.countP (fun o => decide (id_key o = id_key r)) = 0 := by
        apply List.countP_eq_zero.mpr
        intro v hv hp
        have hvk := hinv.kept_ok v hv
        have := of_decide_eq_true hp
        rw [id_key_of_none hvk.1 hvk.2, hk2] at this
        simp at this
      have htitle : (st.by_title.map Prod.snd).countP
          (fun o => decide (id_key o = id_key r)) = 0 := by
        apply countP_vals_zero
        intro e he
        have hto := hinv.title_ok e he
        rw [id_key_of_title hto.1 hto.2.1, hk2]
        simp
      have hdoi : (st.by_doi.map Prod.snd).countP
          (fun o => decide (id_key o = id_key r)) = 1 := by
        rw [countP_congr_on (q := fun v => decide (doi_key v = doi_key r)) ?_]
        · exact countP_vals_keyed doi_key (fun e he => (hinv.doi_ok e he).1)
            hinv.doi_nodup hreach
        · intro a ha
          obtain ⟨e, he, rfl⟩ := List.mem_map.mp ha
          have hdo := hinv.doi_ok e he
          have ha1 : doi_key e.2 ≠ "" := by
            rw [hdo.1]
            exact hdo.2
          rw [id_key_of_doi ha1, hk2]
          simp
      rw [hkept, htitle, hdoi]
  · have h1' : doi_key r = "" := of_not_not h1
    by_cases h2 : norm_title_key r.title ≠ ""
    · have hk2 := id_key_of_title h1' h2
      unfold in_bucket at hreach
      rw [if_neg h1, if_pos h2] at hreach
      constructor
      · intro hk
        rw [hk2] at hk
        exact absurd hk (by simp)
      · intro _
        rw [List.countP_append, List.countP_append]
        have hkept : st.kept.countP (fun o => decide (id_key o = id_key r)) = 0 := by
          apply List.countP_eq_zero.mpr
          intro v hv hp
          have hvk := hinv.kept_ok v hv
          have := of_decide_eq_true hp
          rw [id_key_of_none hvk.1 hvk.2, hk2] at this
          simp at this
        have hdoi : (st.by_doi.map Prod.snd).countP
            (fun o => decide (id_key o = id_key r)) = 0 := by
          apply countP_vals_zero
          intro e he
          have hdo := hinv.doi_ok e he
          have ha1 : doi_key e.2 ≠ "" := by
            rw [hdo.1]
            exact hdo.2
          rw [id_key_of_doi ha1, hk2]
          simp
        have htitle : (st.by_title.map Prod.snd).countP
            (fun o => decide (id_key o = id_key r)) = 1 := by
          rw [countP_congr_on (q := fun v => decide (full_title_key v = full_title_key r)) ?_]
          · exact countP_vals_keyed full_title_key
              (fun e he => (hinv.title_ok e he).2.2) hinv.title_nodup hreach
          · intro a ha
            obtain ⟨e, he, rfl⟩ := List.mem_map.mp ha
            have hto := hinv.title_ok e he
            rw [id_key_of_title hto.1 hto.2.1, hk2]
            simp
        rw [hkept, htitle, hdoi]
    · have h2' : norm_title_key r.title = "" := of_not_not h2
      have hk2 := id_key_of_none h1' h2'
      unfold in_bucket at hreach
      rw [if_neg h1, if_neg h2] at hreach
      constructor
      · intro _
        exact List.mem_append_left _ (List.mem_append_left _ hreach)
      · intro hk
        exact absurd hk2 hk

/-- C7: `deduplicate` returns at most as many records as it was given;
every input record with an identity key (lower-cased DOI, or normalised
title plus year when the DOI is absent) is represented by exactly one
output record carrying that key, and every identity-less input record is
passed through unchanged into the output — no input record is silently
dropped. -/
theorem C7_merge_totality (records : List Record) (r : Record) (hr : r ∈ records) :
    (deduplicate records).length ≤ records.length
    ∧ (id_key r = .noKey → r ∈ deduplicate records)
    ∧ (id_key r ≠ .noKey →
        (deduplicate records).countP (fun o => decide (id_key o = id_key r)) = 1) := by
  have hinv : DedupInv (records.foldl dedup_step {}) :=
    foldl_dedup_inv records {} ⟨List.nodup_nil, List.nodup_nil, by simp, by simp, by simp⟩
  have hreach : in_bucket r (records.foldl dedup_step {}) :=
    foldl_dedup_reach records {} r hr
  have hdef : deduplicate records
      = (records.foldl dedup_step {}).kept
        ++ (records.foldl dedup_step {}).by_doi.map Prod.snd
        ++ (records.foldl dedup_step {}).by_title.map Prod.snd := rfl
  have hcnt := dedup_state_count hinv r hreach
  refine ⟨?_, ?_, ?_⟩
  · have hsize := foldl_dedup_size records {}
    have hzero : ({} : DedupState).size = 0 := rfl
    rw [hzero] at hsize
    rw [hdef]
    simp only [DedupState.size] at hsize
    simp only [List.length_append, List.length_map]
    omega
  · intro hk
    rw [hdef]
    exact hcnt.1 hk
  · intro hk
    rw [hdef]
    exact hcnt.2 hk

def w7_r : Record := { doi := "10.1/A" }

def w7_records : List Record := [{ doi := "10.1/A" }, { doi := "10.1/a", title := "tt" }]

theorem C7_merge_totality_witness :
    w7_r ∈ w7_records
    ∧ id_key w7_r ≠ .noKey
    ∧ (deduplicate w7_records).length ≤ w7_records.length
    ∧ (deduplicate w7_records).countP (fun o => decide (id_key o = id_key w7_r)) = 1 := by
  have h := C7_merge_totality w7_records w7_r (by decide)
  exact ⟨by decide, by decide, h.1, h.2.2 (by decide)⟩

/-! ### Replay lemmas: re-running the loop on its own output -/

theorem map_congr_on {α β : Type} {l : List α} {f g : α → β}
    (h : ∀ a ∈ l, f a = g a) : l.map f = l.map g := by
  induction l with
  | nil => rfl
  | cons a l ih =>
    simp only [List.map_cons, h a (List.mem_cons_self a l),
      ih (fun b hb => h b (List.mem_cons_of_mem a hb))]

theorem vals_doi_keys {st : DedupState} (hinv : DedupInv st) :
    (st.by_doi.map Prod.snd).map doi_key = st.by_doi.map Prod.fst := by
  rw [List.map_map]
  exact map_congr_on (fun e he => (hinv.doi_ok e he).1)

theorem vals_doi_rebuild {st : DedupState} (hinv : DedupInv st) :
    (st.by_doi.map Prod.snd).map (fun v => (doi_key v, v)) = st.by_doi := by
  rw [List.map_map]
  have h1 : st.by_doi.map ((fun v => (doi_key v, v)) ∘ Prod.snd)
      = st.by_doi.map (fun e => e) :=
    map_congr_on (fun e he => by
      have := (hinv.doi_ok e he).1
      simp [Function.comp, this])
  rw [h1, List.map_id']

theorem vals_title_keys {st : DedupState} (hinv : DedupInv st) :
    (st.by_title.map Prod.snd).map full_title_key = st.by_title.map Prod.fst := by
  rw [List.map_map]
  exact map_congr_on (fun e he => (hinv.title_ok e he).2.2)

theorem vals_title_rebuild {st : DedupState} (hinv : DedupInv st) :
    (st.by_title.map Prod.snd).map (fun v => (full_title_key v, v)) = st.by_title := by
  rw [List.map_map]
  have h1 : st.by_title.map ((fun v => (full_title_key v, v)) ∘ Prod.snd)
      = st.by_title.map (fun e => e) :=
    map_congr_on (fun e he => by
      have := (hinv.title_ok e he).2.2
      simp [Function.comp, this])
  rw [h1, List.map_id']

theorem foldl_kept_only : ∀ (recs : List Record) (st : DedupState),
    (∀ v ∈ recs, doi_key v = "" ∧ norm_title_key v.title = "") →
    recs.foldl dedup_step st = { st with kept := st.kept ++ recs }
  | [], st, _ => by simp
  | r :: recs, st, h => by
    have h0 := h r (List.mem_cons_self _ _)
    rw [List.foldl_cons, dedup_step_kept h0.1 h0.2,
      foldl_kept_only recs _ (fun v hv => h v (List.mem_cons_of_mem _ hv))]
    simp [List.append_assoc]

theorem foldl_doi_distinct : ∀ (recs : List Record) (st : DedupState),
    (∀ v ∈ recs, doi_key v ≠ "") →
    ((recs.map doi_key).Nodup) →
    (∀ v ∈ recs, doi_key v ∉ st.by_doi.map Prod.fst) →
    recs.foldl dedup_step st
      = { st with by_doi := st.by_doi ++ recs.map (fun v => (doi_key v, v)) }
  | [], st, _, _, _ => by simp
  | r :: recs, st, hne, hnd, hmem => by
    have h0 := hne r (List.mem_cons_self _ _)
    have hm0 := hmem r (List.mem_cons_self _ _)
    have hstep : dedup_step st r = { st with by_doi := st.by_doi ++ [(doi_key r, r)] } := by
      rw [dedup_step_doi h0]
      unfold stored_val
      rw [alist_find?_eq_none hm0, alist_insert_of_not_mem r hm0]
    simp only [List.map_cons, List.nodup_cons] at hnd
    have hrec := foldl_doi_distinct recs { st with by_doi := st.by_doi ++ [(doi_key r, r)] }
      (fun v hv => hne v (List.mem_cons_of_mem _ hv)) hnd.2 (by
        intro v hv hcon
        rw [List.map_append, List.mem_append] at hcon
        rcases hcon with hc | hc
        · exact hmem v (List.mem_cons_of_mem _ hv) hc
        · simp only [List.map_cons, List.map_nil, List.mem_singleton] at hc
          exact hnd.1 (hc ▸ List.mem_map_of_mem doi_key hv))
    rw [List.foldl_cons, hstep, hrec]
    simp [List.append_assoc]

theorem foldl_title_distinct : ∀ (recs : List Record) (st : DedupState),
    (∀ v ∈ recs, doi_key v = "" ∧ norm_title_key v.title ≠ "") →
    ((recs.map full_title_key).Nodup) →
    (∀ v ∈ recs, full_title_key v ∉ st.by_title.map Prod.fst) →
    recs.foldl dedup_step st
      = { st with by_title := st.by_title ++ recs.map (fun v => (full_title_key v, v)) }
  | [], st, _, _, _ => by simp
  | r :: recs, st, hok, hnd, hmem => by
    have h0 := hok r (List.mem_cons_self _ _)
    have hm0 := hmem r (List.mem_cons_self _ _)
    have hstep : dedup_step st r
        = { st with by_title := st.by_title ++ [(full_title_key r, r)] } := by
      rw [dedup_step_title h0.1 h0.2]
      unfold stored_val
      rw [alist_find?_eq_none hm0, alist_insert_of_not_mem r hm0]
    simp only [List.map_cons, List.nodup_cons] at hnd
    have hrec := foldl_title_distinct recs
      { st with by_title := st.by_title ++ [(full_title_key r, r)] }
      (fun v hv => hok v (List.mem_cons_of_mem _ hv)) hnd.2 (by
        intro v hv hcon
        rw [List.map_append, List.mem_append] at hcon
        rcases hcon with hc | hc
        · exact hmem v (List.mem_cons_of_mem _ hv) hc
        · simp only [List.map_cons, List.map_nil, List.mem_singleton] at hc
          exact hnd.1 (hc ▸ List.mem_map_of_mem full_title_key hv))
    rw [List.foldl_cons, hstep, hrec]
    simp [List.append_assoc]

/-- C8: `deduplicate` is idempotent — applying it to its own output (one
record per identity key, identity-less records passed through) returns
that output unchanged. -/
theorem C8_merge_idempotent (records : List Record) :
    deduplicate (deduplicate records) = deduplicate records := by
  have hinv : DedupInv (records.foldl dedup_step {}) :=
    foldl_dedup_inv records {} ⟨List.nodup_nil, List.nodup_nil, by simp, by simp, by simp⟩
  have hdef : ∀ rs : List Record, deduplicate rs
      = (rs.foldl dedup_step {}).kept
        ++ (rs.foldl dedup_step {}).by_doi.map Prod.snd
        ++ (rs.foldl dedup_step {}).by_title.map Prod.snd := fun _ => rfl
  rw [hdef records]
  revert hinv
  generalize records.foldl dedup_step ({} : DedupState) = st
  intro hinv
  have h1 : st.kept.foldl dedup_step ({} : DedupState)
      = (⟨[], [], st.kept⟩ : DedupState) :=
    (foldl_kept_only st.kept {} hinv.kept_ok).trans rfl
  have hvdne : ∀ v ∈ st.by_doi.map Prod.snd, doi_key v ≠ "" := by
    intro v hv
    obtain ⟨e, he, rfl⟩ := List.mem_map.mp hv
    rw [(hinv.doi_ok e he).1]
    exact (hinv.doi_ok e he).2
  have hvdnd : ((st.by_doi.map Prod.snd).map doi_key).Nodup := by
    rw [vals_doi_keys hinv]
    exact hinv.doi_nodup
  have h2 : (st.by_doi.map Prod.snd).foldl dedup_step (⟨[], [], st.kept⟩ : DedupState)
      = (⟨st.by_doi, [], st.kept⟩ : DedupState) := by
    rw [foldl_doi_distinct (st.by_doi.map Prod.snd) _ hvdne hvdnd (by simp)]
    show (⟨[] ++ (st.by_doi.map Prod.snd).map (fun v => (doi_key v, v)), [], st.kept⟩
        : DedupState) = _
    rw [List.nil_append, vals_doi_rebuild hinv]
  have hvtok : ∀ v ∈ st.by_title.map Prod.snd,
      doi_key v = "" ∧ norm_title_key v.title ≠ "" := by
    intro v hv
    obtain ⟨e, he, rfl⟩ := List.mem_map.mp hv
    exact ⟨(hinv.title_ok e he).1, (hinv.title_ok e he).2.1⟩
  have hvtnd : ((st.by_title.map Prod.snd).map full_title_key).Nodup := by
    rw [vals_title_keys hinv]
    exact hinv.title_nodup
  have h3 : (st.by_title.map Prod.snd).foldl dedup_step
      (⟨st.by_doi, [], st.kept⟩ : DedupState)
      = (⟨st.by_doi, st.by_title, st.kept⟩ : DedupState) := by
    rw [foldl_title_distinct (st.by_title.map Prod.snd) _ hvtok hvtnd (by simp)]
    show (⟨st.by_doi, [] ++ (st.by_title.map Prod.snd).map (fun v => (full_title_key v, v)),
        st.kept⟩ : DedupState) = _
    rw [List.nil_append, vals_title_rebuild hinv]
  have hL : (st.kept ++ st.by_doi.map Prod.snd ++ st.by_title.map Prod.snd).foldl
      dedup_step ({} : DedupState) = st := by
    rw [List.foldl_append, List.foldl_append, h1, h2, h3]
  rw [hdef (st.kept ++ st.by_doi.map Prod.snd ++ st.by_title.map Prod.snd), hL]
